import Mathlib

/-!
Shallow embedding of the encrypted-overlay control plane
(`daemon/libnetwork/drivers/overlay` encryption code): key store,
per-peer security map, SPI derivation, and the kernel SA/SP
programming primitives, together with proofs of the specified
properties.

Modelling conventions:
* IP addresses (`netip.Addr` / `net.IP`) are byte lists (`List Nat`).
* Go machine integers that stay in `uint32` range are `Nat` with
  explicit `% 2^32`; Go `int` counters that can go negative
  (the refcount, the `-1` index sentinels) are `Int`.
* Kernel interaction is modelled by a trace of attempted kernel
  mutations (`kernelOp`) plus an oracle (`kernelOracle`) supplying
  the results of the existence queries (`XfrmStateGet` /
  `XfrmPolicyGet`) and of the mutation calls.  In the source, results
  of mutation calls are only logged, never used for control flow, so
  the oracle's `opFails` field influences nothing but lets failure
  scenarios be expressed.
* Go operations that can panic (slice/index out of range, negative
  slice bound) return `Option`/a `panicked` outcome.
-/

namespace Overlay

/-- Mark value used to label XFRM states and policies programmed by the
driver (`mark = 0xD0C4E3` in the source). -/
def mark : Nat := 0xD0C4E3

/-- ESP packet expansion: SPI(4) + SeqN(4) + IV(8) + PadLength(1) +
NextHeader(1) + ICV(8). -/
def pktExpansion : Int := 26

/-- Direction constants (`forward = iota + 1; reverse; bidir`). -/
def forward : Nat := 1

/-- Direction constant `reverse = 2`. -/
def reverse : Nat := 2

/-- Direction constant `bidir = 3`. -/
def bidir : Nat := 3

/-- Go `type key struct { value []byte; tag uint32 }` -/
structure key where
  value : List Nat
  tag : Nat
deriving DecidableEq

/-- Go `type spi struct { forward, reverse int }`: Security Parameter
Indices for the IPsec flows between the local node and a remote peer.
`buildSPI` always produces a value in `uint32` range, so `Nat`. -/
structure spi where
  forward : Nat
  reverse : Nat
deriving DecidableEq

/-- Go `type encrNode struct { spi []spi; count int }` -/
structure encrNode where
  spi : List spi
  count : Int
deriving DecidableEq

/-- Go `type encrMap map[netip.Addr]encrNode`, as an association list with
unique keys (a Go map cannot hold duplicate keys). -/
abbrev EncrMap := List (List Nat × encrNode)

/-- Go map read `m[a]` without the zero-value default. -/
def emLookup : EncrMap → List Nat → Option encrNode
  | [], _ => none
  | (a, n) :: rest, b => if a = b then some n else emLookup rest b

/-- Go map write `m[a] = v`: replace the entry if present, else append. -/
def emInsert : EncrMap → List Nat → encrNode → EncrMap
  | [], b, v => [(b, v)]
  | (a, n) :: rest, b, v =>
    if a = b then (a, v) :: rest else (a, n) :: emInsert rest b v

/-- Go map deletion `delete(m, a)`. -/
def emErase : EncrMap → List Nat → EncrMap
  | [], _ => []
  | (a, n) :: rest, b => if a = b then rest else (a, n) :: emErase rest b

/-- One step of 32-bit FNV-1a. -/
def fnv32aStep (h b : Nat) : Nat := ((h ^^^ b) * 16777619) % 4294967296

/-- The 32-bit FNV-1a hash over a byte list (`hash/fnv.New32a`). -/
def fnv32a (bs : List Nat) : Nat := bs.foldl fnv32aStep 2166136261

/-- Big-endian 4-byte encoding (`binary.BigEndian.PutUint32`). -/
def be32 (n : Nat) : List Nat :=
  [n / 16777216 % 256, n / 65536 % 256, n / 256 % 256, n % 256]

/-- Source `buildSPI(src, dst, st)`: FNV-1a over `src || be32(st) || dst`.
The Go code converts the 32-bit hash to `int`, which is non-negative
on 64-bit platforms, so the result is the hash value itself. -/
def buildSPI (src dst : List Nat) (st : Nat) : Nat :=
  fnv32a (src ++ be32 st ++ dst)

/-- The `netlink.XfrmStateAlgo` as built by `buildAeadAlgo`. -/
structure xfrmStateAlgo where
  Name : String
  Key : List Nat
  ICVLen : Nat
deriving DecidableEq

/-- Source `buildAeadAlgo(k, s)`: AEAD descriptor whose key is the key material
followed by a 4-byte big-endian salt derived from the SPI. -/
def buildAeadAlgo (k : key) (s : Nat) : xfrmStateAlgo :=
  { Name := "rfc4106(gcm(aes))", Key := k.value ++ be32 s, ICVLen := 64 }

/-- The variable parts of a `netlink.XfrmState` SA descriptor.  The
fields that the source always sets to the same constants
(`Proto = ESP`, `Mode = TRANSPORT`) are omitted; `Reqid` is kept since
it carries the driver's identifying mark. -/
structure xfrmState where
  Src : List Nat
  Dst : List Nat
  Spi : Nat
  Reqid : Nat
  Aead : Option xfrmStateAlgo
deriving DecidableEq

/-- The variable parts of a `netlink.XfrmPolicy` outbound-policy
descriptor (`Src`/`Dst` are the minimal-form addresses with a full
mask; the template points at the forward SA).  Constant fields
(`Dir = OUT`, `Proto = UDP`, the VXLAN destination port, the fixed
`spMark`, template `Proto`/`Mode`/`Reqid`) are omitted. -/
structure xfrmPolicy where
  Src : List Nat
  Dst : List Nat
  TmplSrc : List Nat
  TmplDst : List Nat
  Spi : Nat
deriving DecidableEq

/-- A kernel mutation attempted via netlink. -/
inductive kernelOp where
  | saAdd (sa : xfrmState)
  | saDel (sa : xfrmState)
  | spAdd (p : xfrmPolicy)
  | spDel (p : xfrmPolicy)
  | spUpdate (p : xfrmPolicy)
deriving DecidableEq

/-- Environment supplying the kernel's answers: `saGet`/`spGet` model
`XfrmStateGet`/`XfrmPolicyGet` (`none` = query error, `some b` =
exists/not); `opFails` models whether a mutation call fails.  Mutation
failures are only logged by the source, so `opFails` influences no
control flow. -/
structure kernelOracle where
  saGet : xfrmState → Option Bool
  spGet : xfrmPolicy → Option Bool
  opFails : kernelOp → Bool

/-- Go `ip.To4()`: `some` of the 4-octet form for IPv4 or IPv4-mapped IPv6
addresses, `none` otherwise. -/
def ipTo4 (ip : List Nat) : Option (List Nat) :=
  if ip.length = 4 then some ip
  else if ip.length = 16 ∧ ip.take 12 = [0,0,0,0,0,0,0,0,0,0,255,255]
  then some (ip.drop 12) else none

/-- Source `getMinimalIP`: the address in its shortest form. -/
def getMinimalIP (ip : List Nat) : List Nat :=
  match ipTo4 ip with
  | some v4 => v4
  | none => ip

/-- The outbound policy literal both `programSP` and `updateNodeKey`
build from a forward SA (identical struct literals in the source). -/
def mkOutPolicy (fSA : xfrmState) : xfrmPolicy :=
  let s := getMinimalIP fSA.Src
  let d := getMinimalIP fSA.Dst
  { Src := s, Dst := d, TmplSrc := fSA.Src, TmplDst := fSA.Dst, Spi := fSA.Spi }

/-- Source `programSA(localIP, remoteIP, spi, k, dir, add)`: returns the
forward and reverse SA descriptors that were built (`none` for a
direction not requested), the `lastErr` flag (an existence-query
error occurred), and the trace of kernel mutations attempted.  For
each requested direction an SA descriptor is built (with the AEAD
algorithm attached only when adding), its existence is queried, and
the add/delete is issued only when `add != exists`; a query error is
treated as `exists = !add` so the mutation is still attempted. -/
def programSA (localIP remoteIP : List Nat) (sp : spi) (k : Option key)
    (dir : Nat) (add : Bool) (o : kernelOracle) :
    Option xfrmState × Option xfrmState × Bool × List kernelOp :=
  let revPart : Option xfrmState × Bool × List kernelOp :=
    if dir &&& reverse ≠ 0 then
      let rSA : xfrmState :=
        { Src := remoteIP, Dst := localIP, Spi := sp.reverse, Reqid := mark,
          Aead := if add then k.map (fun kk => buildAeadAlgo kk sp.reverse) else none }
      let q := o.saGet rSA
      let ex := match q with | some b => b | none => !add
      let t := if add ≠ ex then [if add then kernelOp.saAdd rSA else kernelOp.saDel rSA] else []
      (some rSA, q.isNone, t)
    else (none, false, [])
  let fwdPart : Option xfrmState × Bool × List kernelOp :=
    if dir &&& forward ≠ 0 then
      let fSA : xfrmState :=
        { Src := localIP, Dst := remoteIP, Spi := sp.forward, Reqid := mark,
          Aead := if add then k.map (fun kk => buildAeadAlgo kk sp.forward) else none }
      let q := o.saGet fSA
      let ex := match q with | some b => b | none => !add
      let t := if add ≠ ex then [if add then kernelOp.saAdd fSA else kernelOp.saDel fSA] else []
      (some fSA, q.isNone, t)
    else (none, false, [])
  (fwdPart.1, revPart.1, revPart.2.1 || fwdPart.2.1, revPart.2.2 ++ fwdPart.2.2)

/-- Source `programSP(fSA, rSA, add)`: builds the outbound policy from the
forward SA, checks its existence (an error counts as the opposite of
the desired state), and issues the add/delete only when
`add != exists`.  The Go function always returns a nil error, so only
the trace is modelled.  `rSA` is an unused parameter, as in the
source. -/
def programSP (fSA : xfrmState) (rSA : Option xfrmState) (add : Bool)
    (o : kernelOracle) : List kernelOp :=
  let fPol := mkOutPolicy fSA
  let q := o.spGet fPol
  let ex := match q with | some b => b | none => !add
  if add ≠ ex then [if add then kernelOp.spAdd fPol else kernelOp.spDel fPol] else []

/-- The driver state touched by the encryption code:
`d.keys`, `d.secMap`, `d.bindAddress`, `d.advertiseAddress`. -/
structure driver where
  keys : List key
  secMap : EncrMap
  bindAddress : List Nat
  advertiseAddress : List Nat
deriving DecidableEq

/-- The SpiPair derived for key `k` between the advertise address and a
remote peer (source line
`spi{buildSPI(advIP, remoteIP, k.tag), buildSPI(remoteIP, advIP, k.tag)}`). -/
def pairOf (aIP rIP : List Nat) (k : key) : spi :=
  ⟨buildSPI aIP rIP k.tag, buildSPI rIP aIP k.tag⟩

/-- The reverse SA descriptor `programSA` builds when adding key `k`
with SpiPair `sp` (Src = remote, Dst = local). -/
def rSAdesc (lIP rIP : List Nat) (sp : spi) (k : key) : xfrmState :=
  { Src := rIP, Dst := lIP, Spi := sp.reverse, Reqid := mark,
    Aead := some (buildAeadAlgo k sp.reverse) }

/-- The forward SA descriptor `programSA` builds when adding key `k`
with SpiPair `sp` (Src = local, Dst = remote). -/
def fSAdesc (lIP rIP : List Nat) (sp : spi) (k : key) : xfrmState :=
  { Src := lIP, Dst := rIP, Spi := sp.forward, Reqid := mark,
    Aead := some (buildAeadAlgo k sp.forward) }

/-- The per-key loop of `setupEncryption`: for key `i` derive the
SpiPair, program its SA (`bidir` for the first key, `reverse`
otherwise), and for the first key only program the outbound SP.
Returns the accumulated SpiPair list and kernel trace. -/
def setupLoop (lIP aIP rIP : List Nat) (o : kernelOracle) :
    Nat → List key → List spi × List kernelOp
  | _, [] => ([], [])
  | i, k :: ks =>
    let sp := pairOf aIP rIP k
    let dir := if i = 0 then bidir else reverse
    let res := programSA lIP rIP sp (some k) dir true o
    let t2 : List kernelOp :=
      if i = 0 then
        match res.1 with
        | some f => programSP f res.2.1 true o
        | none => []
      else []
    let rest := setupLoop lIP aIP rIP o (i + 1) ks
    (sp :: rest.1, res.2.2.2 ++ t2 ++ rest.2)

/-- Source `setupEncryption(remoteIP)`: fails when no key is present;
otherwise programs the SAs/SP for every key and stores the derived
SpiPair list in the security map with the refcount incremented
(a missing entry reads as the zero value `{spi: [], count: 0}`). -/
def setupEncryption (d : driver) (remoteIP : List Nat) (o : kernelOracle) :
    Except String driver × List kernelOp :=
  if d.keys.length = 0 then
    (Except.error "encryption key is not present", [])
  else
    let lt := setupLoop d.bindAddress d.advertiseAddress remoteIP o 0 d.keys
    let node := (emLookup d.secMap remoteIP).getD ⟨[], 0⟩
    (Except.ok { d with
        secMap := emInsert d.secMap remoteIP ⟨lt.1, node.count + 1⟩ }, lt.2)

/-- The teardown loop of `removeEncryption`, mirroring `setupLoop` with
`add = false` and a nil key. -/
def removeLoop (lIP rIP : List Nat) (o : kernelOracle) :
    Nat → List spi → List kernelOp
  | _, [] => []
  | i, sp :: rest =>
    let dir := if i = 0 then bidir else reverse
    let res := programSA lIP rIP sp none dir false o
    let t2 : List kernelOp :=
      if i = 0 then
        match res.1 with
        | some f => programSP f res.2.1 false o
        | none => []
      else []
    res.2.2.2 ++ t2 ++ removeLoop lIP rIP o (i + 1) rest

/-- Source `removeEncryption(remoteIP)`: reads the node (zero value if
absent), deletes the entry and tears down its SAs/SP when the count is
exactly 1, otherwise decrements the count and writes the node back —
including when no entry existed, in which case a `count = -1` entry is
created.  Always returns nil, so only the state and trace are
modelled. -/
def removeEncryption (d : driver) (remoteIP : List Nat) (o : kernelOracle) :
    driver × List kernelOp :=
  let node := (emLookup d.secMap remoteIP).getD ⟨[], 0⟩
  if node.count = 1 then
    ({ d with secMap := emErase d.secMap remoteIP },
      removeLoop d.bindAddress remoteIP o 0 node.spi)
  else
    ({ d with secMap := emInsert d.secMap remoteIP ⟨node.spi, node.count - 1⟩ }, [])

/-- Go index read `xs[i]` with an `int` index: `none` models the
out-of-range panic. -/
def goIdx {α : Type} (xs : List α) (i : Int) : Option α :=
  if 0 ≤ i then xs[i.toNat]? else none

/-- The last index of `keys` whose tag equals `t`, starting from
position `base` with accumulator `acc` — the Go
`for i, k := range d.keys` loop keeps overwriting the index, so the
last match wins. -/
def lastTagIdxAux (t : Nat) : List key → Nat → Int → Int
  | [], _, acc => acc
  | k :: rest, base, acc =>
    lastTagIdxAux t rest (base + 1) (if k.tag = t then Int.ofNat base else acc)

/-- Index-search for an optional key reference: `-1` when the argument
is nil or no tag matches, otherwise the last matching index. -/
def lastTagIdx (ks : List key) (q : Option key) : Int :=
  match q with
  | none => -1
  | some p => lastTagIdxAux p.tag ks 0 (-1)

/-- Source `updateNodeKey(lIP, aIP, rIP, idxs, curKeys, newIdx, priIdx, delIdx)`:
per-peer rotation step.  `none` models a Go index/slice panic.
Otherwise returns the peer's updated SpiPair list and the kernel
trace: remove the pruned reverse SA, add the new key's reverse SA,
and for a promotion add the new forward SA, update the outbound SP in
place (`XfrmPolicyUpdate`, issued unconditionally), and remove the
old forward SA; then swap positions 0/`priIdx` and prune. -/
def updateNodeKey (lIP aIP rIP : List Nat) (idxs : List spi)
    (curKeys : List key) (newIdx priIdx delIdx : Int) (o : kernelOracle) :
    Option (List spi × List kernelOp) :=
  -- add new
  let step1 : Option (List spi) :=
    if newIdx ≠ -1 then
      match goIdx curKeys newIdx with
      | some nk => some (idxs ++ [⟨buildSPI aIP rIP nk.tag, buildSPI rIP aIP nk.tag⟩])
      | none => none
    else some idxs
  match step1 with
  | none => none
  | some spis =>
    -- -rSA0
    let delStep : Option (List kernelOp) :=
      if delIdx ≠ -1 then
        match goIdx spis delIdx with
        | some sd => some (programSA lIP rIP sd none reverse false o).2.2.2
        | none => none
      else some []
    match delStep with
    | none => none
    | some t1 =>
      -- +rSA2
      let newStep : Option (List kernelOp) :=
        if newIdx > -1 then
          match goIdx spis newIdx, goIdx curKeys newIdx with
          | some sn, some kn => some (programSA lIP rIP sn (some kn) reverse true o).2.2.2
          | _, _ => none
        else some []
      match newStep with
      | none => none
      | some t2 =>
        -- +fSA2, +fSP2/-fSP1, -fSA1
        let priStep : Option (List kernelOp) :=
          if priIdx > 0 then
            match goIdx spis priIdx, goIdx curKeys priIdx, goIdx spis 0 with
            | some spP, some kp, some s0 =>
              let r1 := programSA lIP rIP spP (some kp) forward true o
              match r1.1 with
              | some fSA2 =>
                let t3 := r1.2.2.2 ++ [kernelOp.spUpdate (mkOutPolicy fSA2)]
                let t4 := (programSA lIP rIP s0 none forward false o).2.2.2
                some (t3 ++ t4)
              | none => none
            | _, _, _ => none
          else some []
        match priStep with
        | none => none
        | some t3 =>
          -- swap
          let swapped : Option (List spi) :=
            if priIdx > 0 then
              match goIdx spis 0, goIdx spis priIdx with
              | some a, some b => some ((spis.set 0 b).set priIdx.toNat a)
              | _, _ => none
            else some spis
          match swapped with
          | none => none
          | some spis2 =>
            -- prune
            if delIdx ≠ -1 then
              let dI := if delIdx = 0 then priIdx else delIdx
              if 0 ≤ dI ∧ dI + 1 ≤ (spis2.length : Int) then
                some (spis2.take dI.toNat ++ spis2.drop (dI.toNat + 1), t1 ++ t2 ++ t3)
              else none
            else some (spis2, t1 ++ t2 ++ t3)

/-- The `for rIP, node := range d.secMap` loop of `updateKeys`.  The Go
map write is skipped when `updateNodeKey` returns a nil slice, which
can only happen when the input slice was nil and nothing was appended
or pruned — in that case the write would rewrite the identical node,
so unconditional update produces the same map content.  Go map
iteration order is unspecified; entries are independent, so list
order is used. -/
def peerLoop (lIP aIP : List Nat) (ks : List key)
    (newIdx priIdx delIdx : Int) (o : kernelOracle) :
    EncrMap → Option (EncrMap × List kernelOp)
  | [] => some ([], [])
  | (rIP, node) :: rest =>
    match updateNodeKey lIP aIP rIP node.spi ks newIdx priIdx delIdx o with
    | none => none
    | some (idxs, t) =>
      match peerLoop lIP aIP ks newIdx priIdx delIdx o rest with
      | none => none
      | some (m2, t2) => some ((rIP, ⟨idxs, node.count⟩) :: m2, t ++ t2)

/-- The two validation errors `updateKeys` can return. -/
inductive updateErr where
  | cannotFind (newIdx priIdx delIdx : Int)
  | primaryAndDelete (priIdx : Int)
deriving DecidableEq

/-- Outcome of `updateKeys`: normal return with the new driver state
and kernel trace, an error return carrying the driver state at the
return point (the key list is already mutated when `newKey` was
non-nil) and the — empty — kernel trace, or a Go panic. -/
inductive uResult where
  | ok (d : driver) (trace : List kernelOp)
  | err (e : updateErr) (d : driver) (trace : List kernelOp)
  | panicked
deriving DecidableEq

/-- The `// prune` step of `updateKeys` on the key list:
`if delIdx == 0 { delIdx = priIdx }` followed by
`append(keys[:delIdx], keys[delIdx+1:]...)`; a negative or too-large
bound is a Go panic (`none`). -/
def pruneList {α : Type} (xs : List α) (delIdx priIdx : Int) : Option (List α) :=
  if delIdx ≠ -1 then
    let dI := if delIdx = 0 then priIdx else delIdx
    if 0 ≤ dI ∧ dI + 1 ≤ (xs.length : Int) then
      some (xs.take dI.toNat ++ xs.drop (dI.toNat + 1))
    else none
  else some xs

/-- The `// swap primary` step: `keys[0], keys[priIdx] = keys[priIdx], keys[0]`
(panic when an index is out of range). -/
def swapPrimary {α : Type} (xs : List α) (priIdx : Int) : Option (List α) :=
  if priIdx ≠ -1 then
    match goIdx xs 0, goIdx xs priIdx with
    | some a, some b => some ((xs.set 0 b).set priIdx.toNat a)
    | _, _ => none
  else some xs

/-- The `// add new` step on the key list: `d.keys = append(d.keys, newKey)`
(no-op for a nil `newKey`). -/
def updatedKeyList (keys : List key) (nk : Option key) : List key :=
  match nk with
  | some k => keys ++ [k]
  | none => keys

/-- The `newIdx` computation: `-1`, plus `len(d.keys)` after the append
when `newKey` is non-nil. -/
def newKeyIdx (keys1 : List key) (nk : Option key) : Int :=
  match nk with
  | some _ => -1 + (keys1.length : Int)
  | none => -1

/-- Source `updateKeys(newKey, primary, pruneKey)`: appends `newKey` to the
key list (before any validation, as in the source), computes the
last-match indices of the primary and prune references over the
updated list, validates (any referenced key unresolved, or the same
index requested as primary and pruned, is an error — returned with
the already-appended key list and no kernel mutation), then runs
`updateNodeKey` for every peer, swaps the primary into position 0 and
prunes the deleted key. -/
def updateKeysM (d : driver) (newKey primary pruneKey : Option key)
    (o : kernelOracle) : uResult :=
  let keys1 := updatedKeyList d.keys newKey
  let newIdx : Int := newKeyIdx keys1 newKey
  let priIdx : Int := lastTagIdx keys1 primary
  let delIdx : Int := lastTagIdx keys1 pruneKey
  if (newKey.isSome ∧ newIdx = -1) ∨ (primary.isSome ∧ priIdx = -1) ∨
      (pruneKey.isSome ∧ delIdx = -1) then
    uResult.err (updateErr.cannotFind newIdx priIdx delIdx)
      ⟨keys1, d.secMap, d.bindAddress, d.advertiseAddress⟩ []
  else if priIdx ≠ -1 ∧ priIdx = delIdx then
    uResult.err (updateErr.primaryAndDelete priIdx)
      ⟨keys1, d.secMap, d.bindAddress, d.advertiseAddress⟩ []
  else
    match peerLoop d.bindAddress d.advertiseAddress keys1 newIdx priIdx delIdx o d.secMap with
    | none => uResult.panicked
    | some (m2, t) =>
      match swapPrimary keys1 priIdx with
      | none => uResult.panicked
      | some keys2 =>
        match pruneList keys2 delIdx priIdx with
        | none => uResult.panicked
        | some keys3 =>
          uResult.ok ⟨keys3, m2, d.bindAddress, d.advertiseAddress⟩ t

/-- The fields of `network` read by `maxMTU`. -/
structure network where
  mtu : Int
  secure : Bool
deriving DecidableEq

/-- Modelled from the spec: the constant `vxlanEncap` (the overlay
encapsulation overhead subtracted from the link MTU) is defined
outside the shown sources, so `maxMTU` takes it as a parameter. -/
def maxMTU (vxlanEncap : Int) (n : network) : Int :=
  let mtu : Int := if n.mtu ≠ 0 then n.mtu else 1500
  let mtu := mtu - vxlanEncap
  if n.secure then
    let mtu := mtu - pktExpansion
    mtu - Int.tmod mtu 4
  else mtu

/-- The key set of a map, for the uniqueness invariant. -/
def emNodup (m : EncrMap) : Prop := (m.map Prod.fst).Nodup

/-- The `spis[0], spis[priIdx] = spis[priIdx], spis[0]` swap performed
by the promotion step (identity when an index is out of range, which
the call sites proved here exclude). -/
def swap0 {α : Type} (xs : List α) (i : Nat) : List α :=
  match xs[0]?, xs[i]? with
  | some a, some b => (xs.set 0 b).set i a
  | _, _ => xs

/-- The validation predicate of `updateKeys`, extracted for the
error-characterization theorem: the same index computation the source
performs over the already-updated key list, referencing neither the
kernel nor the peer map. -/
def updateKeysValidationFails (keys : List key) (nk pr dk : Option key) : Bool :=
  let keys1 := updatedKeyList keys nk
  let newIdx : Int := newKeyIdx keys1 nk
  let priIdx : Int := lastTagIdx keys1 pr
  let delIdx : Int := lastTagIdx keys1 dk
  (nk.isSome && newIdx == -1) || (pr.isSome && priIdx == -1) ||
    (dk.isSome && delIdx == -1) || (priIdx != -1 && priIdx == delIdx)

/-- Driver states reachable from a fresh `setKeys` state (empty peer
map) through successful operations, with `removeEncryption` invoked
only for addresses present in the map (the balanced-usage discipline
assumed by the refcount invariant). -/
inductive ReachBalanced : driver → Prop where
  | init : ∀ (keys : List key) (bindA advA : List Nat),
      ReachBalanced ⟨keys, [], bindA, advA⟩
  | setup : ∀ (d : driver) (r : List Nat) (o : kernelOracle) (d' : driver),
      ReachBalanced d → (setupEncryption d r o).1 = Except.ok d' → ReachBalanced d'
  | remove : ∀ (d : driver) (r : List Nat) (o : kernelOracle),
      ReachBalanced d → emLookup d.secMap r ≠ none →
      ReachBalanced (removeEncryption d r o).1
  | update : ∀ (d : driver) (nk pk dk : Option key) (o : kernelOracle)
      (d' : driver) (t : List kernelOp),
      ReachBalanced d → updateKeysM d nk pk dk o = uResult.ok d' t → ReachBalanced d'

/-! Sample data used by the concrete witnesses and counterexamples. -/

/-- Sample bind address. -/
def sampleBind : List Nat := [1]

/-- Sample advertise address. -/
def sampleAdv : List Nat := [1]

/-- Sample remote peer address. -/
def sampleR : List Nat := [2]

/-- Sample key with tag 1. -/
def sampleK0 : key := ⟨[7], 1⟩

/-- Sample key with tag 2. -/
def sampleK1 : key := ⟨[8], 2⟩

/-- Sample key with tag 99, never installed. -/
def sampleKX : key := ⟨[9], 99⟩

/-- Sample oracle: every existence query answers "absent", every
mutation call fails (mutation failures are only logged by the code). -/
def sampleOracle : kernelOracle :=
  ⟨fun _ => some false, fun _ => some false, fun _ => true⟩

/-- SpiPair of `sampleK0` towards `sampleR`. -/
def sampleSp0 : spi := pairOf sampleAdv sampleR sampleK0

/-- SpiPair of `sampleK1` towards `sampleR`. -/
def sampleSp1 : spi := pairOf sampleAdv sampleR sampleK1

/-- Sample driver: two keys, one peer entry with refcount 1 and a
SpiPair per key. -/
def sampleD2 : driver :=
  ⟨[sampleK0, sampleK1], [(sampleR, ⟨[sampleSp0, sampleSp1], 1⟩)],
    sampleBind, sampleAdv⟩

end Overlay

namespace Overlay

/-! ### Association-map lemmas -/

theorem emLookup_insert (m : EncrMap) (b : List Nat) (v : encrNode) :
    emLookup (emInsert m b v) b = some v := by
  induction m with
  | nil => simp [emInsert, emLookup]
  | cons p rest ih =>
    obtain ⟨a, n⟩ := p
    by_cases h : a = b
    · simp [emInsert, h, emLookup]
    · simp [emInsert, h, emLookup, ih]

theorem mem_emInsert (m : EncrMap) (b : List Nat) (v : encrNode)
    (p : List Nat × encrNode) (hp : p ∈ emInsert m b v) : p = (b, v) ∨ p ∈ m := by
  induction m with
  | nil => simpa [emInsert] using hp
  | cons q rest ih =>
    obtain ⟨a, n⟩ := q
    by_cases h : a = b
    · subst h
      rcases (by simpa [emInsert] using hp : p = (a, v) ∨ p ∈ rest) with h1 | h1
      · exact Or.inl (by simpa using h1)
      · exact Or.inr (List.mem_cons_of_mem _ h1)
    · rcases (by simpa [emInsert, h] using hp : p = (a, n) ∨ p ∈ emInsert rest b v) with h1 | h1
      · exact Or.inr (by simp [h1])
      · rcases ih h1 with h2 | h2
        · exact Or.inl h2
        · exact Or.inr (List.mem_cons_of_mem _ h2)

theorem emLookup_eq_none_iff (m : EncrMap) (b : List Nat) :
    emLookup m b = none ↔ b ∉ m.map Prod.fst := by
  induction m with
  | nil => simp [emLookup]
  | cons q rest ih =>
    obtain ⟨a, n⟩ := q
    by_cases h : a = b
    · simp [emLookup, h]
    · simp [emLookup, h, ih, Ne.symm h]

theorem emErase_insert_of_lookup_none (m : EncrMap) (b : List Nat) (v : encrNode)
    (h : emLookup m b = none) : emErase (emInsert m b v) b = m := by
  induction m with
  | nil => simp [emInsert, emErase]
  | cons q rest ih =>
    obtain ⟨a, n⟩ := q
    by_cases hab : a = b
    · simp [emLookup, hab] at h
    · simp [emLookup, hab] at h
      simp [emInsert, hab, emErase, ih h]

theorem emLookup_mem (m : EncrMap) (b : List Nat) (n : encrNode)
    (h : emLookup m b = some n) : (b, n) ∈ m := by
  induction m with
  | nil => simp [emLookup] at h
  | cons q rest ih =>
    obtain ⟨a, n'⟩ := q
    by_cases hab : a = b
    · simp [emLookup, hab] at h
      simp [hab, h]
    · simp [emLookup, hab] at h
      exact List.mem_cons_of_mem _ (ih h)

theorem mem_emErase (m : EncrMap) (b : List Nat) (p : List Nat × encrNode)
    (hp : p ∈ emErase m b) : p ∈ m := by
  induction m with
  | nil => simpa [emErase] using hp
  | cons q rest ih =>
    obtain ⟨a, n⟩ := q
    by_cases hab : a = b
    · exact List.mem_cons_of_mem _ (by simpa [emErase, hab] using hp)
    · rcases (by simpa [emErase, hab] using hp : p = (a, n) ∨ p ∈ emErase rest b) with h1 | h1
      · simp [h1]
      · exact List.mem_cons_of_mem _ (ih h1)

theorem emNodup_insert (m : EncrMap) (b : List Nat) (v : encrNode)
    (h : emNodup m) : emNodup (emInsert m b v) := by
  induction m with
  | nil => simp [emInsert, emNodup]
  | cons q rest ih =>
    obtain ⟨a, n⟩ := q
    rw [emNodup, List.map_cons, List.nodup_cons] at h
    by_cases hab : a = b
    · subst hab
      rw [show emInsert ((a, n) :: rest) a v = (a, v) :: rest by simp [emInsert]]
      rw [emNodup, List.map_cons, List.nodup_cons]
      exact h
    · have h2 : emNodup (emInsert rest b v) := ih h.2
      have hone : a ∉ (emInsert rest b v).map Prod.fst := by
        intro hmem
        rcases List.mem_map.mp hmem with ⟨p, hp, hfst⟩
        rcases mem_emInsert rest b v p hp with h3 | h3
        · exact hab (by rw [h3] at hfst; simpa using hfst.symm)
        · exact h.1 (by rw [← hfst]; exact List.mem_map.mpr ⟨p, h3, rfl⟩)
      rw [show emInsert ((a, n) :: rest) b v = (a, n) :: emInsert rest b v by
        simp [emInsert, hab]]
      rw [emNodup, List.map_cons, List.nodup_cons]
      exact ⟨hone, h2⟩

theorem emErase_map_fst_sublist (m : EncrMap) (b : List Nat) :
    ((emErase m b).map Prod.fst).Sublist (m.map Prod.fst) := by
  induction m with
  | nil => simp [emErase]
  | cons q rest ih =>
    obtain ⟨a, n⟩ := q
    by_cases hab : a = b
    · simpa [emErase, hab] using List.sublist_cons_self a (rest.map Prod.fst)
    · simpa [emErase, hab] using ih.cons₂ a

theorem emNodup_erase (m : EncrMap) (b : List Nat) (h : emNodup m) :
    emNodup (emErase m b) := (emErase_map_fst_sublist m b).nodup h

theorem emLookup_erase_self (m : EncrMap) (b : List Nat) (h : emNodup m) :
    emLookup (emErase m b) b = none := by
  induction m with
  | nil => simp [emErase, emLookup]
  | cons q rest ih =>
    obtain ⟨a, n⟩ := q
    rw [emNodup, List.map_cons, List.nodup_cons] at h
    by_cases hab : a = b
    · subst hab
      rw [show emErase ((a, n) :: rest) a = rest by simp [emErase]]
      exact (emLookup_eq_none_iff rest a).mpr h.1
    · simp [emErase, hab, emLookup, ih h.2]

end Overlay

namespace Overlay

/-! ### Characterizations of the kernel programming primitives -/

theorem programSA_rev_true (l r : List Nat) (sp : spi) (k : key) (o : kernelOracle) :
    programSA l r sp (some k) reverse true o =
      (none, some (rSAdesc l r sp k), (o.saGet (rSAdesc l r sp k)).isNone,
        if o.saGet (rSAdesc l r sp k) = some true then []
        else [kernelOp.saAdd (rSAdesc l r sp k)]) := by
  cases h : o.saGet (rSAdesc l r sp k) with
  | none =>
    simp only [rSAdesc] at h
    simp [programSA, rSAdesc, reverse, forward, h]
  | some b =>
    simp only [rSAdesc] at h
    cases b <;> simp [programSA, rSAdesc, reverse, forward, h]

theorem programSA_bidir_true (l r : List Nat) (sp : spi) (k : key) (o : kernelOracle) :
    programSA l r sp (some k) bidir true o =
      (some (fSAdesc l r sp k), some (rSAdesc l r sp k),
        ((o.saGet (rSAdesc l r sp k)).isNone || (o.saGet (fSAdesc l r sp k)).isNone),
        (if o.saGet (rSAdesc l r sp k) = some true then []
         else [kernelOp.saAdd (rSAdesc l r sp k)]) ++
        (if o.saGet (fSAdesc l r sp k) = some true then []
         else [kernelOp.saAdd (fSAdesc l r sp k)])) := by
  cases hr : o.saGet (rSAdesc l r sp k) with
  | none =>
    simp only [rSAdesc] at hr
    cases hf : o.saGet (fSAdesc l r sp k) with
    | none =>
      simp only [fSAdesc] at hf
      simp [programSA, rSAdesc, fSAdesc, reverse, forward, bidir, hr, hf]
    | some b =>
      simp only [fSAdesc] at hf
      cases b <;> simp [programSA, rSAdesc, fSAdesc, reverse, forward, bidir, hr, hf]
  | some b =>
    simp only [rSAdesc] at hr
    cases hf : o.saGet (fSAdesc l r sp k) with
    | none =>
      simp only [fSAdesc] at hf
      cases b <;> simp [programSA, rSAdesc, fSAdesc, reverse, forward, bidir, hr, hf]
    | some b2 =>
      simp only [fSAdesc] at hf
      cases b <;> cases b2 <;>
        simp [programSA, rSAdesc, fSAdesc, reverse, forward, bidir, hr, hf]

theorem programSP_true (f : xfrmState) (rs : Option xfrmState) (o : kernelOracle) :
    programSP f rs true o =
      if o.spGet (mkOutPolicy f) = some true then []
      else [kernelOp.spAdd (mkOutPolicy f)] := by
  cases h : o.spGet (mkOutPolicy f) with
  | none => simp [programSP, h]
  | some b => cases b <;> simp [programSP, h]

/-! ### `setupEncryption` characterizations -/

theorem setupLoop_fst (l a r : List Nat) (o : kernelOracle) :
    ∀ (ks : List key) (i : Nat), (setupLoop l a r o i ks).1 = ks.map (pairOf a r) := by
  intro ks
  induction ks with
  | nil => intro i; simp [setupLoop]
  | cons k rest ih => intro i; simp [setupLoop, ih]

theorem setupLoop_trace_tail (l a r : List Nat) (o : kernelOracle) :
    ∀ (ks : List key) (i : Nat), i ≠ 0 →
      (∀ op ∈ (setupLoop l a r o i ks).2,
          ∃ k, k ∈ ks ∧ op = kernelOp.saAdd (rSAdesc l r (pairOf a r k) k)) ∧
      (∀ k ∈ ks, o.saGet (rSAdesc l r (pairOf a r k) k) ≠ some true →
          kernelOp.saAdd (rSAdesc l r (pairOf a r k) k) ∈ (setupLoop l a r o i ks).2) := by
  intro ks
  induction ks with
  | nil => intro i _; simp [setupLoop]
  | cons k rest ih =>
    intro i hi
    have hrec := ih (i + 1) (Nat.succ_ne_zero i)
    constructor
    · intro op hop
      rw [setupLoop] at hop
      simp only [if_neg hi, programSA_rev_true] at hop
      rcases (show (o.saGet (rSAdesc l r (pairOf a r k) k) ≠ some true ∧
            op = kernelOp.saAdd (rSAdesc l r (pairOf a r k) k)) ∨
            op ∈ (setupLoop l a r o (i + 1) rest).2 by simpa using hop) with ⟨_, rfl⟩ | h1
      · exact ⟨k, List.mem_cons_self k rest, rfl⟩
      · rcases hrec.1 op h1 with ⟨k2, hk2, hop2⟩
        exact ⟨k2, List.mem_cons_of_mem _ hk2, hop2⟩
    · intro k2 hk2 hq
      rw [setupLoop]
      simp only [if_neg hi, programSA_rev_true]
      rcases List.mem_cons.mp hk2 with h1 | h1
      · subst h1
        simp [hq]
      · have := hrec.2 k2 h1 hq
        simp [this]

end Overlay

namespace Overlay

theorem setupEncryption_ok (d : driver) (r : List Nat) (o : kernelOracle)
    (h : d.keys ≠ []) :
    (setupEncryption d r o).1 = Except.ok { d with
      secMap := emInsert d.secMap r ⟨d.keys.map (pairOf d.advertiseAddress r),
        ((emLookup d.secMap r).getD ⟨[], 0⟩).count + 1⟩ } := by
  have hlen : d.keys.length ≠ 0 := by
    simpa [List.length_eq_zero] using h
  simp [setupEncryption, hlen, setupLoop_fst]

theorem setupEncryption_err_iff (d : driver) (r : List Nat) (o : kernelOracle) :
    (∃ msg, (setupEncryption d r o).1 = Except.error msg) ↔ d.keys = [] := by
  constructor
  · rintro ⟨msg, hmsg⟩
    by_contra hne
    rw [setupEncryption_ok d r o hne] at hmsg
    exact Except.noConfusion hmsg
  · intro he
    refine ⟨"encryption key is not present", ?_⟩
    have hlen : d.keys.length = 0 := by simp [he]
    simp [setupEncryption, hlen]

theorem setupEncryption_trace_mem (d : driver) (rIP : List Nat) (o : kernelOracle)
    (k0 : key) (ks : List key) (hk : d.keys = k0 :: ks) (op : kernelOp) :
    op ∈ (setupEncryption d rIP o).2 ↔
      (op = kernelOp.saAdd (rSAdesc d.bindAddress rIP (pairOf d.advertiseAddress rIP k0) k0) ∧
        o.saGet (rSAdesc d.bindAddress rIP (pairOf d.advertiseAddress rIP k0) k0) ≠ some true) ∨
      (op = kernelOp.saAdd (fSAdesc d.bindAddress rIP (pairOf d.advertiseAddress rIP k0) k0) ∧
        o.saGet (fSAdesc d.bindAddress rIP (pairOf d.advertiseAddress rIP k0) k0) ≠ some true) ∨
      (op = kernelOp.spAdd (mkOutPolicy (fSAdesc d.bindAddress rIP (pairOf d.advertiseAddress rIP k0) k0)) ∧
        o.spGet (mkOutPolicy (fSAdesc d.bindAddress rIP (pairOf d.advertiseAddress rIP k0) k0)) ≠ some true) ∨
      op ∈ (setupLoop d.bindAddress d.advertiseAddress rIP o 1 ks).2 := by
  obtain ⟨dk, dm, db, da⟩ := d
  simp only at hk
  subst hk
  rw [show (setupEncryption ⟨k0 :: ks, dm, db, da⟩ rIP o).2 =
      (setupLoop db da rIP o 0 (k0 :: ks)).2 by simp [setupEncryption]]
  rw [setupLoop]
  by_cases h1 : o.saGet (rSAdesc db rIP (pairOf da rIP k0) k0) = some true <;>
    by_cases h2 : o.saGet (fSAdesc db rIP (pairOf da rIP k0) k0) = some true <;>
      by_cases h3 : o.spGet (mkOutPolicy (fSAdesc db rIP (pairOf da rIP k0) k0)) = some true <;>
        simp [h1, h2, h3, programSA_bidir_true, programSP_true] <;> tauto

end Overlay

namespace Overlay

/-! ### `removeEncryption` and index-search characterizations -/

theorem removeEncryption_secMap (d : driver) (r : List Nat) (o : kernelOracle)
    (n : encrNode) (h : emLookup d.secMap r = some n) :
    (removeEncryption d r o).1.secMap =
      if n.count = 1 then emErase d.secMap r
      else emInsert d.secMap r ⟨n.spi, n.count - 1⟩ := by
  by_cases hc : n.count = 1 <;> simp [removeEncryption, h, hc]

theorem removeEncryption_keys (d : driver) (r : List Nat) (o : kernelOracle) :
    (removeEncryption d r o).1.keys = d.keys ∧
    (removeEncryption d r o).1.bindAddress = d.bindAddress ∧
    (removeEncryption d r o).1.advertiseAddress = d.advertiseAddress := by
  by_cases hc : ((emLookup d.secMap r).getD ⟨[], 0⟩).count = 1 <;>
    simp [removeEncryption, hc]

theorem lastTagIdxAux_of_not_mem (t : Nat) :
    ∀ (ks : List key) (base : Nat) (acc : Int), t ∉ ks.map key.tag →
      lastTagIdxAux t ks base acc = acc := by
  intro ks
  induction ks with
  | nil => intro base acc _; rfl
  | cons k rest ih =>
    intro base acc hmem
    rw [List.map_cons, List.mem_cons] at hmem
    push_neg at hmem
    rw [lastTagIdxAux, if_neg (fun he => hmem.1 he.symm)]
    exact ih (base + 1) acc hmem.2

theorem lastTagIdxAux_eq (t : Nat) :
    ∀ (ks : List key) (i : Nat) (K : key) (base : Nat) (acc : Int),
      (ks.map key.tag).Nodup → ks[i]? = some K → K.tag = t →
      lastTagIdxAux t ks base acc = (base : Int) + i := by
  intro ks
  induction ks with
  | nil => intro i K base acc _ h _; simp at h
  | cons k rest ih =>
    intro i K base acc hnd hget htag
    rw [List.map_cons, List.nodup_cons] at hnd
    cases i with
    | zero =>
      have hkK : k = K := by simpa using hget
      subst hkK
      rw [lastTagIdxAux, if_pos htag]
      rw [lastTagIdxAux_of_not_mem t rest (base + 1) (Int.ofNat base) (htag ▸ hnd.1)]
      simp [Int.ofNat_eq_natCast]
    | succ j =>
      have hget2 : rest[j]? = some K := by simpa using hget
      have hKmem : K ∈ rest := by
        rcases List.getElem?_eq_some.mp hget2 with ⟨hj, hj2⟩
        exact hj2 ▸ List.getElem_mem hj
      have hne : ¬(k.tag = t) := by
        intro he
        exact hnd.1 (by
          rw [he, ← htag]
          exact List.mem_map.mpr ⟨K, hKmem, rfl⟩)
      rw [lastTagIdxAux, if_neg hne]
      rw [ih j K (base + 1) acc hnd.2 hget2 htag]
      omega

theorem lastTagIdx_eq (ks : List key) (i : Nat) (K : key)
    (hnd : (ks.map key.tag).Nodup) (hget : ks[i]? = some K) :
    lastTagIdx ks (some K) = (i : Int) := by
  rw [lastTagIdx, lastTagIdxAux_eq K.tag ks i K 0 (-1) hnd hget rfl]
  simp

theorem goIdx_ofNat {α : Type} (xs : List α) (n : Nat) :
    goIdx xs (n : Int) = xs[n]? := by
  simp [goIdx]

end Overlay

namespace Overlay

theorem programSA_fwd_true_fst (l r : List Nat) (sp : spi) (k : key)
    (o : kernelOracle) :
    (programSA l r sp (some k) forward true o).1 = some (fSAdesc l r sp k) := by
  simp [programSA, forward, reverse, fSAdesc]

/-! ### `updateNodeKey` in the configurations used by the claims -/

theorem updateNodeKey_add (lIP aIP rIP : List Nat) (idxs : List spi)
    (curKeys : List key) (K : key) (o : kernelOracle) (L : Nat)
    (hL : idxs.length = L) (hK : curKeys[L]? = some K) :
    updateNodeKey lIP aIP rIP idxs curKeys (L : Int) (-1) (-1) o =
      some (idxs ++ [pairOf aIP rIP K],
        (programSA lIP rIP (pairOf aIP rIP K) (some K) reverse true o).2.2.2) := by
  subst hL
  have h1 : ((idxs.length : Int)) ≠ -1 := by omega
  have h2 : ((idxs.length : Int)) > -1 := by omega
  have h3 : ¬((-1 : Int) ≠ -1) := by simp
  have h4 : ¬((-1 : Int) > 0) := by norm_num
  have hg1 : goIdx curKeys ((idxs.length : Int)) = some K := by
    rw [goIdx_ofNat]; exact hK
  have hg2 : goIdx (idxs ++ [pairOf aIP rIP K]) ((idxs.length : Int)) =
      some (pairOf aIP rIP K) := by
    rw [goIdx_ofNat]; simp
  simp only [pairOf] at hg2
  rw [updateNodeKey]
  simp [h1, h2, h3, h4, hg1, hg2, pairOf]

theorem updateNodeKey_promote (lIP aIP rIP : List Nat) (idxs : List spi)
    (curKeys : List key) (i : Nat) (K : key) (o : kernelOracle)
    (hi : 0 < i) (x y : spi) (hx : idxs[0]? = some x) (hy : idxs[i]? = some y)
    (hK : curKeys[i]? = some K) :
    updateNodeKey lIP aIP rIP idxs curKeys (-1) (i : Int) (-1) o =
      some ((idxs.set 0 y).set i x,
        (programSA lIP rIP y (some K) forward true o).2.2.2 ++
          (kernelOp.spUpdate (mkOutPolicy (fSAdesc lIP rIP y K)) ::
            (programSA lIP rIP x none forward false o).2.2.2)) := by
  have h3 : ¬((-1 : Int) ≠ -1) := by simp
  have h4 : ¬((-1 : Int) > -1) := by norm_num
  have h5 : ((i : Int)) > 0 := by omega
  have hg0 : goIdx idxs 0 = some x := by
    simpa [goIdx] using hx
  have hgi : goIdx idxs ((i : Int)) = some y := by
    rw [goIdx_ofNat]; exact hy
  have hgk : goIdx curKeys ((i : Int)) = some K := by
    rw [goIdx_ofNat]; exact hK
  rw [updateNodeKey]
  simp [h3, h4, h5, hg0, hgi, hgk, programSA_fwd_true_fst]

/-! ### The peer loop in those configurations -/

theorem peerLoop_shape (lIP aIP : List Nat) (ks : List key)
    (ni pi di : Int) (o : kernelOracle) :
    ∀ (m m2 : EncrMap) (t : List kernelOp),
      peerLoop lIP aIP ks ni pi di o m = some (m2, t) →
      m2.map Prod.fst = m.map Prod.fst ∧
      ∀ q ∈ m2, ∃ p ∈ m, q.1 = p.1 ∧ q.2.count = p.2.count := by
  intro m
  induction m with
  | nil =>
    intro m2 t h
    rw [peerLoop] at h
    obtain ⟨h1, h2⟩ : m2 = [] ∧ t = [] := by
      constructor <;> [exact congrArg Prod.fst (Option.some.inj h).symm;
        exact congrArg Prod.snd (Option.some.inj h).symm]
    subst h1
    exact ⟨rfl, by simp⟩
  | cons p rest ih =>
    intro m2 t h
    obtain ⟨rIP, node⟩ := p
    rw [peerLoop] at h
    cases hu : updateNodeKey lIP aIP rIP node.spi ks ni pi di o with
    | none => rw [hu] at h; exact absurd h (by simp)
    | some pr =>
      obtain ⟨idxs, t1⟩ := pr
      rw [hu] at h
      cases hrec : peerLoop lIP aIP ks ni pi di o rest with
      | none => rw [hrec] at h; exact absurd h (by simp)
      | some pr2 =>
        obtain ⟨mr, t2⟩ := pr2
        rw [hrec] at h
        simp only at h
        obtain ⟨hm, _⟩ : m2 = (rIP, ⟨idxs, node.count⟩) :: mr ∧ t = t1 ++ t2 := by
          have := Option.some.inj h
          exact ⟨congrArg Prod.fst this.symm, congrArg Prod.snd this.symm⟩
        subst hm
        obtain ⟨ih1, ih2⟩ := ih mr t2 hrec
        constructor
        · simp [ih1]
        · intro q hq
          rcases List.mem_cons.mp hq with h1 | h1
          · exact ⟨(rIP, node), List.mem_cons_self _ _, by simp [h1]⟩
          · rcases ih2 q h1 with ⟨p2, hp2, hq2⟩
            exact ⟨p2, List.mem_cons_of_mem _ hp2, hq2⟩

end Overlay

namespace Overlay

theorem peerLoop_add (lIP aIP : List Nat) (curKeys : List key) (K : key)
    (o : kernelOracle) (L : Nat) (hK : curKeys[L]? = some K) :
    ∀ (m : EncrMap), (∀ p ∈ m, p.2.spi.length = L) →
      ∃ t, peerLoop lIP aIP curKeys (L : Int) (-1) (-1) o m =
        some (m.map (fun p => (p.1, ⟨p.2.spi ++ [pairOf aIP p.1 K], p.2.count⟩)), t) := by
  intro m
  induction m with
  | nil => intro _; exact ⟨[], rfl⟩
  | cons p rest ih =>
    intro hlen
    obtain ⟨rIP, node⟩ := p
    have h1 : node.spi.length = L := hlen (rIP, node) (List.mem_cons_self _ _)
    have ht1 := updateNodeKey_add lIP aIP rIP node.spi curKeys K o L h1 hK
    obtain ⟨t2, ht2⟩ := ih (fun q hq => hlen q (List.mem_cons_of_mem _ hq))
    refine ⟨(programSA lIP rIP (pairOf aIP rIP K) (some K) reverse true o).2.2.2 ++ t2, ?_⟩
    rw [peerLoop, ht1, ht2]
    rfl

theorem peerLoop_promote (lIP aIP : List Nat) (curKeys : List key) (i : Nat)
    (K : key) (o : kernelOracle) (hi : 0 < i) (hK : curKeys[i]? = some K) :
    ∀ (m : EncrMap), (∀ p ∈ m, p.2.spi.length = curKeys.length) →
      ∃ t, peerLoop lIP aIP curKeys (-1) (i : Int) (-1) o m =
        some (m.map (fun p => (p.1, ⟨swap0 p.2.spi i, p.2.count⟩)), t) := by
  intro m
  induction m with
  | nil => intro _; exact ⟨[], rfl⟩
  | cons p rest ih =>
    intro hlen
    obtain ⟨rIP, node⟩ := p
    have hlen1 : node.spi.length = curKeys.length := hlen _ (List.mem_cons_self _ _)
    obtain ⟨hiK, -⟩ := List.getElem?_eq_some.mp hK
    have h0lt : 0 < node.spi.length := by omega
    have hilt : i < node.spi.length := by omega
    have hx : node.spi[0]? = some (node.spi[0]) := List.getElem?_eq_getElem h0lt
    have hy : node.spi[i]? = some (node.spi[i]) := List.getElem?_eq_getElem hilt
    have ht1 := updateNodeKey_promote lIP aIP rIP node.spi curKeys i K o hi _ _ hx hy hK
    obtain ⟨t2, ht2⟩ := ih (fun q hq => hlen q (List.mem_cons_of_mem _ hq))
    have hsw : swap0 node.spi i = (node.spi.set 0 (node.spi[i])).set i (node.spi[0]) := by
      simp [swap0, hx, hy]
    refine ⟨((programSA lIP rIP (node.spi[i]) (some K) forward true o).2.2.2 ++
      (kernelOp.spUpdate (mkOutPolicy (fSAdesc lIP rIP (node.spi[i]) K)) ::
        (programSA lIP rIP (node.spi[0]) none forward false o).2.2.2)) ++ t2, ?_⟩
    rw [peerLoop, ht1, ht2]
    simp [hsw]

end Overlay

namespace Overlay

/-! ### Claim theorems (first batch) -/

/-- C1 (counterexample): starting from a reachable state (fresh
`setKeys` state, empty peer map), calling `removeEncryption` for a
remote address with **no** entry does not leave the map without an
entry: it creates an entry for that address with `count = -1`,
violating both the `refcount ≥ 1` invariant and the no-entry claim. -/
theorem cl1_remove_absent_counterexample :
    emLookup ([] : EncrMap) sampleR = none ∧
    emLookup ((removeEncryption ⟨[sampleK0], [], sampleBind, sampleAdv⟩
        sampleR sampleOracle).1).secMap sampleR = some ⟨[], -1⟩ ∧
    ¬ (1 : Int) ≤ -1 := by decide

/-- C2 (counterexample): `updateKeys(newKey=K1, primary=KX)` with `KX`
not resolving to any index returns the validation error — but the
KeyStore at the error return already contains the appended `K1`, so
the state is *not* fully unmutated. -/
theorem cl2_counterexample :
    updateKeysM ⟨[sampleK0], [], sampleBind, sampleAdv⟩ (some sampleK1)
        (some sampleKX) none sampleOracle =
      uResult.err (updateErr.cannotFind 1 (-1) (-1))
        ⟨[sampleK0, sampleK1], [], sampleBind, sampleAdv⟩ [] ∧
    [sampleK0, sampleK1] ≠ [sampleK0] := by decide

/-- C2 (amended): when `updateKeys` returns a validation error, no
kernel mutation has been attempted and the Peer Security Map (hence
every peer's SpiPair sequence) and addresses are unchanged; the
KeyStore is unchanged **except** that a non-nil `newKey` has already
been appended before validation runs. -/
theorem cl2_validation_error_mutation (d : driver) (nk pr dk : Option key)
    (o : kernelOracle) (e : updateErr) (d2 : driver) (t : List kernelOp)
    (h : updateKeysM d nk pr dk o = uResult.err e d2 t) :
    d2.secMap = d.secMap ∧ d2.bindAddress = d.bindAddress ∧
    d2.advertiseAddress = d.advertiseAddress ∧ t = [] ∧
    (∀ k, nk = some k → d2.keys = d.keys ++ [k]) ∧
    (nk = none → d2.keys = d.keys) := by
  rw [updateKeysM.eq_def] at h
  dsimp only [] at h
  split_ifs at h with h1 h2
  · injection h with he hd ht
    subst hd; subst ht
    refine ⟨rfl, rfl, rfl, rfl, ?_, ?_⟩
    · intro k hk; subst hk; rfl
    · intro hk; subst hk; rfl
  · injection h with he hd ht
    subst hd; subst ht
    refine ⟨rfl, rfl, rfl, rfl, ?_, ?_⟩
    · intro k hk; subst hk; rfl
    · intro hk; subst hk; rfl
  · exfalso
    split at h
    · exact absurd h (by simp)
    · split at h
      · exact absurd h (by simp)
      · split at h
        · exact absurd h (by simp)
        · exact absurd h (by simp)

/-- C2 (witness for the amended theorem at the counterexample input). -/
theorem cl2_witness :
    (⟨[sampleK0, sampleK1], [], sampleBind, sampleAdv⟩ : driver).keys =
      (⟨[sampleK0], [], sampleBind, sampleAdv⟩ : driver).keys ++ [sampleK1] :=
  ((cl2_validation_error_mutation ⟨[sampleK0], [], sampleBind, sampleAdv⟩
    (some sampleK1) (some sampleKX) none sampleOracle
    (updateErr.cannotFind 1 (-1) (-1))
    ⟨[sampleK0, sampleK1], [], sampleBind, sampleAdv⟩ []
    (by decide)).2.2.2.2.1) sampleK1 rfl

/-- C3: for every state and key K, `updateKeys(primary=K, pruneKey=K)`
returns a validation error with the driver state completely unchanged
and zero kernel mutations. -/
theorem cl3_promote_and_prune_rejected (d : driver) (K : key)
    (o : kernelOracle) :
    ∃ e, updateKeysM d none (some K) (some K) o = uResult.err e d [] := by
  by_cases hj : lastTagIdx d.keys (some K) = -1
  · exact ⟨updateErr.cannotFind (-1) (-1) (-1),
      by simp [updateKeysM, updatedKeyList, newKeyIdx, hj]⟩
  · exact ⟨updateErr.primaryAndDelete (lastTagIdx d.keys (some K)),
      by simp [updateKeysM, updatedKeyList, newKeyIdx, hj]⟩

/-- C10 (code bug): a call that passes input validation —
`updateKeys(pruneKey = key at index 0)` with no primary — does *not*
index only in range: the prune step redirects `delIdx` from 0 to
`priIdx = -1` and evaluates `keys[:-1]`, an out-of-range slice bound,
so the call panics. -/
theorem cl10_prune_primary_panics :
    updateKeysM ⟨[sampleK0, sampleK1], [], sampleBind, sampleAdv⟩
      none none (some sampleK0) sampleOracle = uResult.panicked := by decide

/-- C9 (spec-modelled `vxlanEncap`): with link MTU 1500 (or 0 = unset,
defaulting to 1500) and encryption off, `maxMTU` returns
`1500 - vxlanEncap`; with encryption on it returns that value minus
the ESP expansion constant 26, rounded down to a multiple of 4. -/
theorem cl9_maxMTU (ve : Int) (h : 26 ≤ 1500 - ve) :
    maxMTU ve ⟨1500, false⟩ = 1500 - ve ∧
    maxMTU ve ⟨0, false⟩ = 1500 - ve ∧
    maxMTU ve ⟨0, true⟩ = maxMTU ve ⟨1500, true⟩ ∧
    (4 : Int) ∣ maxMTU ve ⟨1500, true⟩ ∧
    maxMTU ve ⟨1500, true⟩ ≤ 1500 - ve - 26 ∧
    1500 - ve - 26 < maxMTU ve ⟨1500, true⟩ + 4 := by
  have h0 : (0 : Int) ≤ 1500 - ve - 26 := by omega
  have htm : Int.tmod (1500 - ve - 26) 4 = (1500 - ve - 26) % 4 :=
    Int.tmod_eq_emod h0 (by norm_num)
  have hm : maxMTU ve ⟨1500, true⟩ =
      (1500 - ve - 26) - Int.tmod (1500 - ve - 26) 4 := by
    simp [maxMTU, pktExpansion]
  refine ⟨by simp [maxMTU], by simp [maxMTU], by simp [maxMTU], ?_, ?_, ?_⟩
  · rw [hm, htm]; omega
  · rw [hm, htm]; omega
  · rw [hm, htm]; omega

/-- C9 (witness at `vxlanEncap = 50`). -/
theorem cl9_witness :
    maxMTU 50 ⟨1500, false⟩ = 1450 ∧ (4 : Int) ∣ maxMTU 50 ⟨1500, true⟩ := by
  obtain ⟨h1, -, -, h4, -, -⟩ := cl9_maxMTU 50 (by norm_num)
  exact ⟨by rw [h1]; norm_num, h4⟩

end Overlay

namespace Overlay

/-- C8 (amended): `updateKeys` returns an error exactly when input
validation fails — a condition on the arguments and the KeyStore only.
No kernel SA/SP sub-operation failure, including a failure of the
in-place outbound-SP update (`XfrmPolicyUpdate`) during the
primary-promotion pivot, is surfaced as an error: the right-hand side
does not mention the kernel oracle, so the error outcome is
independent of any kernel failure. -/
theorem cl8_error_only_validation (d : driver) (nk pr dk : Option key)
    (o : kernelOracle) :
    (∃ e d2 t, updateKeysM d nk pr dk o = uResult.err e d2 t) ↔
      updateKeysValidationFails d.keys nk pr dk = true := by
  simp only [updateKeysM.eq_def, updateKeysValidationFails.eq_def]
  generalize updatedKeyList d.keys nk = keys1
  generalize newKeyIdx keys1 nk = newIdx
  generalize lastTagIdx keys1 pr = priIdx
  generalize lastTagIdx keys1 dk = delIdx
  by_cases h1 : (nk.isSome ∧ newIdx = -1) ∨ (pr.isSome ∧ priIdx = -1) ∨
      (dk.isSome ∧ delIdx = -1)
  · simp only [if_pos h1]
    constructor
    · intro _
      simp only [Bool.or_eq_true, Bool.and_eq_true, beq_iff_eq]
      tauto
    · intro _
      exact ⟨_, _, _, rfl⟩
  · simp only [if_neg h1]
    by_cases h2 : priIdx ≠ -1 ∧ priIdx = delIdx
    · simp only [if_pos h2]
      constructor
      · intro _
        simp only [Bool.or_eq_true, Bool.and_eq_true, beq_iff_eq, bne_iff_ne]
        tauto
      · intro _
        exact ⟨_, _, _, rfl⟩
    · simp only [if_neg h2]
      constructor
      · rintro ⟨e, d2, t, h⟩
        split at h
        · exact absurd h (by simp)
        · split at h
          · exact absurd h (by simp)
          · split at h
            · exact absurd h (by simp)
            · exact absurd h (by simp)
      · intro hb
        exfalso
        simp only [Bool.or_eq_true, Bool.and_eq_true, beq_iff_eq, bne_iff_ne] at hb
        tauto

/-- C8 (counterexample to the claim as stated): promoting `sampleK1`
with an oracle on which **every** kernel mutation fails — including
the in-place outbound-SP pivot update, which is attempted (it is in
the trace) — still returns `ok`, not an error. -/
theorem cl8_counterexample :
    updateKeysM sampleD2 none (some sampleK1) none sampleOracle =
      uResult.ok ⟨[sampleK1, sampleK0],
          [(sampleR, ⟨[sampleSp1, sampleSp0], 1⟩)], sampleBind, sampleAdv⟩
        [kernelOp.saAdd (fSAdesc sampleBind sampleR sampleSp1 sampleK1),
          kernelOp.spUpdate (mkOutPolicy (fSAdesc sampleBind sampleR sampleSp1 sampleK1))] ∧
    sampleOracle.opFails
      (kernelOp.spUpdate (mkOutPolicy (fSAdesc sampleBind sampleR sampleSp1 sampleK1))) =
      true := by decide

end Overlay

namespace Overlay

theorem swap0_length {α : Type} (xs : List α) (i : Nat) :
    (swap0 xs i).length = xs.length := by
  rw [swap0.eq_def]
  cases h0 : xs[0]? with
  | none => simp
  | some a =>
    cases hi2 : xs[i]? with
    | none => simp
    | some b => simp

theorem swap0_getElem?_zero {α : Type} (xs : List α) (i : Nat) (hi : i ≠ 0)
    (x y : α) (hx : xs[0]? = some x) (hy : xs[i]? = some y) :
    (swap0 xs i)[0]? = some y := by
  obtain ⟨h0, -⟩ := List.getElem?_eq_some.mp hx
  rw [swap0.eq_def, hx, hy]
  simp only []
  rw [List.getElem?_set_ne hi]
  exact List.getElem?_set_eq_of_lt y h0

/-- C5: adding a new key `K` (no primary, no prune) to a state with a
non-empty Key Store succeeds, appends `K` at the end of the KeyStore
(so its index is not 0), and gives every existing peer a SpiPair
sequence exactly one element longer, with `K`'s derived pair appended. -/
theorem cl5_updateKeys_addKey (d : driver) (K : key) (o : kernelOracle)
    (hne : d.keys ≠ [])
    (hlen : ∀ p ∈ d.secMap, p.2.spi.length = d.keys.length) :
    (∃ t, updateKeysM d (some K) none none o =
      uResult.ok ⟨d.keys ++ [K],
        d.secMap.map (fun p =>
          (p.1, ⟨p.2.spi ++ [pairOf d.advertiseAddress p.1 K], p.2.count⟩)),
        d.bindAddress, d.advertiseAddress⟩ t) ∧
    (d.keys ++ [K])[d.keys.length]? = some K ∧
    d.keys.length ≠ 0 ∧
    (∀ p ∈ d.secMap,
      (p.2.spi ++ [pairOf d.advertiseAddress p.1 K]).length = p.2.spi.length + 1) := by
  have hKat : (d.keys ++ [K])[d.keys.length]? = some K := by
    simp
  have hlen0 : d.keys.length ≠ 0 := by
    simpa [List.length_eq_zero] using hne
  refine ⟨?_, hKat, hlen0, fun p _ => by simp⟩
  obtain ⟨t, ht⟩ := peerLoop_add d.bindAddress d.advertiseAddress (d.keys ++ [K])
    K o d.keys.length hKat d.secMap hlen
  refine ⟨t, ?_⟩
  have hni : (-1 : Int) + (((d.keys ++ [K]).length : Nat) : Int) =
      (d.keys.length : Int) := by
    simp
  rw [updateKeysM.eq_def]
  simp only [updatedKeyList, newKeyIdx, lastTagIdx]
  rw [hni, ht]
  split
  next hcond => exact absurd hcond (by simp <;> omega)
  next =>
    split
    next hcond2 => exact absurd hcond2 (by simp)
    next => simp [swapPrimary, pruneList]

/-- C6: promoting key `K`, sitting at index `i > 0` of a duplicate-free
KeyStore, with no new and no prune argument, succeeds; afterwards `K`
is at index 0 of the KeyStore and every peer's SpiPair sequence has
`K`'s pair (formerly at index `i`) at index 0; the KeyStore and every
peer's sequence keep their length. -/
theorem cl6_updateKeys_promote (d : driver) (K : key) (i : Nat)
    (o : kernelOracle) (hnd : (d.keys.map key.tag).Nodup)
    (hget : d.keys[i]? = some K) (hi : 0 < i)
    (hlen : ∀ p ∈ d.secMap, p.2.spi.length = d.keys.length) :
    (∃ t, updateKeysM d none (some K) none o =
      uResult.ok ⟨swap0 d.keys i,
        d.secMap.map (fun p => (p.1, ⟨swap0 p.2.spi i, p.2.count⟩)),
        d.bindAddress, d.advertiseAddress⟩ t) ∧
    (swap0 d.keys i)[0]? = some K ∧
    (swap0 d.keys i).length = d.keys.length ∧
    (∀ p ∈ d.secMap, (swap0 p.2.spi i).length = p.2.spi.length ∧
      (swap0 p.2.spi i)[0]? = p.2.spi[i]?) := by
  obtain ⟨hilt, -⟩ := List.getElem?_eq_some.mp hget
  have h0lt : 0 < d.keys.length := by omega
  have hk0 : d.keys[0]? = some (d.keys[0]) := List.getElem?_eq_getElem h0lt
  constructor
  · obtain ⟨t, ht⟩ := peerLoop_promote d.bindAddress d.advertiseAddress d.keys i
      K o hi hget d.secMap hlen
    refine ⟨t, ?_⟩
    have hpri : lastTagIdx d.keys (some K) = (i : Int) := lastTagIdx_eq d.keys i K hnd hget
    rw [updateKeysM.eq_def]
    simp only [updatedKeyList, newKeyIdx, lastTagIdx]
    rw [show lastTagIdxAux K.tag d.keys 0 (-1) = (i : Int) from hpri, ht]
    have hswp : swapPrimary d.keys ((i : Nat) : Int) = some (swap0 d.keys i) := by
      rw [swapPrimary.eq_def]
      have hne1 : (((i : Nat) : Int) ≠ -1) := by omega
      rw [if_pos hne1]
      rw [show goIdx d.keys 0 = d.keys[0]? from by simp [goIdx], goIdx_ofNat, hk0, hget]
      rw [swap0.eq_def, hk0, hget]
      simp
    split
    next hcond => exact absurd hcond (by simp <;> omega)
    next =>
      split
      next hcond2 => exact absurd hcond2 (by omega)
      next =>
        rw [hswp]
        simp [pruneList]
  · refine ⟨swap0_getElem?_zero d.keys i (by omega) _ _ hk0 hget,
      swap0_length d.keys i, ?_⟩
    intro p hp
    have hplen : p.2.spi.length = d.keys.length := hlen p hp
    have hp0 : p.2.spi[0]? = some (p.2.spi[0]) := List.getElem?_eq_getElem (by omega)
    have hpi : p.2.spi[i]? = some (p.2.spi[i]) := List.getElem?_eq_getElem (by omega)
    exact ⟨swap0_length p.2.spi i,
      by rw [swap0_getElem?_zero p.2.spi i (by omega) _ _ hp0 hpi, hpi]⟩

end Overlay

namespace Overlay

/-- C4: `setupEncryption` fails iff the Key Store is empty; otherwise,
for every oracle (so even when individual kernel SA/SP operations
fail) it returns success, stores the SpiPair derived for every key in
Key Store order with the refcount incremented, attempts the reverse SA
of every key whenever the kernel does not report it as already
present, attempts the forward SA and the outbound SP only with the
first key's descriptors, and every operation in its kernel trace is a
reverse-SA add for some installed key, the first key's forward-SA add,
or the first key's outbound-SP add. -/
theorem cl4_setupEncryption (d : driver) (rIP : List Nat) (o : kernelOracle)
    (k0 : key) (ks : List key) (hk : d.keys = k0 :: ks) :
    (∀ (d2 : driver) (r2 : List Nat) (o2 : kernelOracle),
        (∃ msg, (setupEncryption d2 r2 o2).1 = Except.error msg) ↔ d2.keys = []) ∧
    (setupEncryption d rIP o).1 = Except.ok { d with
        secMap := emInsert d.secMap rIP ⟨d.keys.map (pairOf d.advertiseAddress rIP),
          ((emLookup d.secMap rIP).getD ⟨[], 0⟩).count + 1⟩ } ∧
    (∀ op ∈ (setupEncryption d rIP o).2,
        (∃ k, k ∈ d.keys ∧ op = kernelOp.saAdd
            (rSAdesc d.bindAddress rIP (pairOf d.advertiseAddress rIP k) k)) ∨
        op = kernelOp.saAdd
          (fSAdesc d.bindAddress rIP (pairOf d.advertiseAddress rIP k0) k0) ∨
        op = kernelOp.spAdd
          (mkOutPolicy (fSAdesc d.bindAddress rIP (pairOf d.advertiseAddress rIP k0) k0))) ∧
    (∀ k ∈ d.keys,
        o.saGet (rSAdesc d.bindAddress rIP (pairOf d.advertiseAddress rIP k) k) ≠ some true →
        kernelOp.saAdd (rSAdesc d.bindAddress rIP (pairOf d.advertiseAddress rIP k) k) ∈
          (setupEncryption d rIP o).2) ∧
    (o.saGet (fSAdesc d.bindAddress rIP (pairOf d.advertiseAddress rIP k0) k0) ≠ some true →
        kernelOp.saAdd (fSAdesc d.bindAddress rIP (pairOf d.advertiseAddress rIP k0) k0) ∈
          (setupEncryption d rIP o).2) ∧
    (o.spGet (mkOutPolicy (fSAdesc d.bindAddress rIP (pairOf d.advertiseAddress rIP k0) k0)) ≠ some true →
        kernelOp.spAdd (mkOutPolicy (fSAdesc d.bindAddress rIP (pairOf d.advertiseAddress rIP k0) k0)) ∈
          (setupEncryption d rIP o).2) := by
  have hmem := setupEncryption_trace_mem d rIP o k0 ks hk
  have htail := setupLoop_trace_tail d.bindAddress d.advertiseAddress rIP o ks 1
    one_ne_zero
  refine ⟨fun d2 r2 o2 => setupEncryption_err_iff d2 r2 o2,
    setupEncryption_ok d rIP o (by rw [hk]; exact List.cons_ne_nil _ _),
    ?_, ?_, ?_, ?_⟩
  · intro op hop
    rcases (hmem op).mp hop with ⟨h1, _⟩ | ⟨h1, _⟩ | ⟨h1, _⟩ | h1
    · exact Or.inl ⟨k0, by rw [hk]; exact List.mem_cons_self _ _, h1⟩
    · exact Or.inr (Or.inl h1)
    · exact Or.inr (Or.inr h1)
    · rcases htail.1 op h1 with ⟨k2, hk2, hop2⟩
      exact Or.inl ⟨k2, by rw [hk]; exact List.mem_cons_of_mem _ hk2, hop2⟩
  · intro k hkk hq
    rw [hk] at hkk
    rcases List.mem_cons.mp hkk with h1 | h1
    · subst h1
      exact (hmem _).mpr (Or.inl ⟨rfl, hq⟩)
    · exact (hmem _).mpr (Or.inr (Or.inr (Or.inr (htail.2 k h1 hq))))
  · intro hq
    exact (hmem _).mpr (Or.inr (Or.inl ⟨rfl, hq⟩))
  · intro hq
    exact (hmem _).mpr (Or.inr (Or.inr (Or.inl ⟨rfl, hq⟩)))

/-- C4 (witness): the single-key setup succeeds and stores the derived
SpiPair with refcount 1. -/
theorem cl4_witness :
    (setupEncryption ⟨[sampleK0], [], sampleBind, sampleAdv⟩ sampleR sampleOracle).1 =
      Except.ok ⟨[sampleK0], [(sampleR, ⟨[sampleSp0], 1⟩)], sampleBind, sampleAdv⟩ := by
  obtain ⟨-, h2, -, -, -, -⟩ := cl4_setupEncryption
    ⟨[sampleK0], [], sampleBind, sampleAdv⟩ sampleR sampleOracle sampleK0 [] rfl
  exact h2

end Overlay

namespace Overlay

/-- C7: for a remote address `rIP` with no entry and a non-empty Key
Store, `setupEncryption` immediately followed by `removeEncryption`
leaves the Peer Security Map without an entry for `rIP`; after two
`setupEncryption` calls the refcount is 2 and a single
`removeEncryption` only decrements it to 1, leaving the entry and its
SpiPair sequence in place. -/
theorem cl7_refcount_roundtrip (d : driver) (rIP : List Nat)
    (o1 o2 o3 o4 o5 : kernelOracle)
    (habs : emLookup d.secMap rIP = none) (hk : d.keys ≠ []) :
    (∃ d1, (setupEncryption d rIP o1).1 = Except.ok d1 ∧
        emLookup ((removeEncryption d1 rIP o2).1).secMap rIP = none) ∧
    (∃ d1 d2, (setupEncryption d rIP o3).1 = Except.ok d1 ∧
        (setupEncryption d1 rIP o4).1 = Except.ok d2 ∧
        emLookup d2.secMap rIP =
          some ⟨d.keys.map (pairOf d.advertiseAddress rIP), 2⟩ ∧
        emLookup ((removeEncryption d2 rIP o5).1).secMap rIP =
          some ⟨d.keys.map (pairOf d.advertiseAddress rIP), 1⟩) := by
  have hc0 : ((emLookup d.secMap rIP).getD ⟨[], 0⟩).count = 0 := by
    rw [habs]
    rfl
  have hok1 : ∀ oo : kernelOracle, (setupEncryption d rIP oo).1 = Except.ok
      (⟨d.keys,
        emInsert d.secMap rIP ⟨d.keys.map (pairOf d.advertiseAddress rIP), 1⟩,
        d.bindAddress, d.advertiseAddress⟩ : driver) := by
    intro oo
    have h := setupEncryption_ok d rIP oo hk
    rw [hc0] at h
    simpa using h
  constructor
  · refine ⟨_, hok1 o1, ?_⟩
    have hlook : emLookup
        (emInsert d.secMap rIP ⟨d.keys.map (pairOf d.advertiseAddress rIP), 1⟩) rIP =
        some ⟨d.keys.map (pairOf d.advertiseAddress rIP), 1⟩ :=
      emLookup_insert _ _ _
    have hrm := removeEncryption_secMap
      (⟨d.keys,
        emInsert d.secMap rIP ⟨d.keys.map (pairOf d.advertiseAddress rIP), 1⟩,
        d.bindAddress, d.advertiseAddress⟩ : driver)
      rIP o2 ⟨d.keys.map (pairOf d.advertiseAddress rIP), 1⟩ hlook
    rw [hrm, if_pos rfl]
    rw [show ((⟨d.keys,
        emInsert d.secMap rIP ⟨d.keys.map (pairOf d.advertiseAddress rIP), 1⟩,
        d.bindAddress, d.advertiseAddress⟩ : driver)).secMap =
        emInsert d.secMap rIP ⟨d.keys.map (pairOf d.advertiseAddress rIP), 1⟩ from rfl]
    rw [emErase_insert_of_lookup_none d.secMap rIP _ habs]
    exact habs
  · have hok2 := setupEncryption_ok
      (⟨d.keys,
        emInsert d.secMap rIP ⟨d.keys.map (pairOf d.advertiseAddress rIP), 1⟩,
        d.bindAddress, d.advertiseAddress⟩ : driver) rIP o4 hk
    rw [show (emLookup ((⟨d.keys,
        emInsert d.secMap rIP ⟨d.keys.map (pairOf d.advertiseAddress rIP), 1⟩,
        d.bindAddress, d.advertiseAddress⟩ : driver)).secMap rIP) =
        some ⟨d.keys.map (pairOf d.advertiseAddress rIP), 1⟩ from
        emLookup_insert _ _ _] at hok2
    have hok2' : (setupEncryption
        (⟨d.keys,
          emInsert d.secMap rIP ⟨d.keys.map (pairOf d.advertiseAddress rIP), 1⟩,
          d.bindAddress, d.advertiseAddress⟩ : driver) rIP o4).1 = Except.ok
        (⟨d.keys,
          emInsert
            (emInsert d.secMap rIP ⟨d.keys.map (pairOf d.advertiseAddress rIP), 1⟩)
            rIP ⟨d.keys.map (pairOf d.advertiseAddress rIP), 2⟩,
          d.bindAddress, d.advertiseAddress⟩ : driver) := hok2
    refine ⟨_, _, hok1 o3, hok2', emLookup_insert _ _ _, ?_⟩
    have hrm2 := removeEncryption_secMap
      (⟨d.keys,
        emInsert
          (emInsert d.secMap rIP ⟨d.keys.map (pairOf d.advertiseAddress rIP), 1⟩)
          rIP ⟨d.keys.map (pairOf d.advertiseAddress rIP), 2⟩,
        d.bindAddress, d.advertiseAddress⟩ : driver)
      rIP o5 ⟨d.keys.map (pairOf d.advertiseAddress rIP), 2⟩ (emLookup_insert _ _ _)
    rw [hrm2, if_neg (by norm_num :
        ¬((⟨d.keys.map (pairOf d.advertiseAddress rIP), 2⟩ : encrNode).count = 1))]
    rw [emLookup_insert]
    norm_num

/-- C7 (witness): with one key installed and no prior entry, setup
followed by remove leaves no entry for the sample remote address. -/
theorem cl7_witness :
    emLookup ((removeEncryption
        ⟨[sampleK0], [(sampleR, ⟨[sampleSp0], 1⟩)], sampleBind, sampleAdv⟩
        sampleR sampleOracle).1).secMap sampleR = none := by
  obtain ⟨⟨d1, hok, hafter⟩, -⟩ := cl7_refcount_roundtrip
    ⟨[sampleK0], [], sampleBind, sampleAdv⟩ sampleR sampleOracle sampleOracle
    sampleOracle sampleOracle sampleOracle rfl (by decide)
  have h2 : (setupEncryption ⟨[sampleK0], [], sampleBind, sampleAdv⟩
      sampleR sampleOracle).1 = Except.ok
      (⟨[sampleK0], [(sampleR, ⟨[sampleSp0], 1⟩)], sampleBind, sampleAdv⟩ : driver) := by
    rfl
  rw [h2] at hok
  have hd : d1 = ⟨[sampleK0], [(sampleR, ⟨[sampleSp0], 1⟩)], sampleBind, sampleAdv⟩ :=
    (Except.ok.inj hok).symm
  rw [hd] at hafter
  exact hafter

end Overlay

namespace Overlay

/-- Invariant of balanced-usage reachable states: the peer map has
unique keys and every entry has refcount at least 1. -/
theorem reach_secInv (d : driver) (h : ReachBalanced d) :
    emNodup d.secMap ∧ ∀ p ∈ d.secMap, 1 ≤ p.2.count := by
  induction h with
  | init keys bindA advA =>
    exact ⟨by simp [emNodup], by simp⟩
  | setup d r o d' hre hok ih =>
    by_cases hk : d.keys = []
    · obtain ⟨msg, hmsg⟩ := (setupEncryption_err_iff d r o).mpr hk
      rw [hok] at hmsg
      exact absurd hmsg (by simp)
    · have hs := setupEncryption_ok d r o hk
      rw [hs] at hok
      injection hok with hd'
      subst hd'
      refine ⟨emNodup_insert _ _ _ ih.1, ?_⟩
      intro p hp
      rcases mem_emInsert _ _ _ p hp with h1 | h1
      · subst h1
        cases hl : emLookup d.secMap r with
        | none => simp [hl]
        | some n =>
          have hn := ih.2 (r, n) (emLookup_mem _ _ _ hl)
          simp only at hn
          simp [hl]
          omega
      · exact ih.2 p h1
  | remove d r o hre hne ih =>
    cases hl : emLookup d.secMap r with
    | none => exact absurd hl hne
    | some n =>
      have hc := ih.2 (r, n) (emLookup_mem _ _ _ hl)
      simp only at hc
      have hs := removeEncryption_secMap d r o n hl
      by_cases h1 : n.count = 1
      · rw [hs, if_pos h1]
        exact ⟨emNodup_erase _ _ ih.1, fun p hp => ih.2 p (mem_emErase _ _ p hp)⟩
      · rw [hs, if_neg h1]
        refine ⟨emNodup_insert _ _ _ ih.1, ?_⟩
        intro p hp
        rcases mem_emInsert _ _ _ p hp with h2 | h2
        · subst h2
          simp only
          omega
        · exact ih.2 p h2
  | update d nk pk dk o d' t hre hok ih =>
    rw [updateKeysM.eq_def] at hok
    dsimp only [] at hok
    split at hok
    · exact absurd hok (by simp)
    split at hok
    · exact absurd hok (by simp)
    · cases hp : peerLoop d.bindAddress d.advertiseAddress (updatedKeyList d.keys nk)
          (newKeyIdx (updatedKeyList d.keys nk) nk)
          (lastTagIdx (updatedKeyList d.keys nk) pk)
          (lastTagIdx (updatedKeyList d.keys nk) dk) o d.secMap with
      | none => rw [hp] at hok; exact absurd hok (by simp)
      | some pr2 =>
        obtain ⟨m2, t2⟩ := pr2
        rw [hp] at hok
        simp only [] at hok
        cases hsw : swapPrimary (updatedKeyList d.keys nk)
            (lastTagIdx (updatedKeyList d.keys nk) pk) with
        | none => rw [hsw] at hok; exact absurd hok (by simp)
        | some keys2 =>
          rw [hsw] at hok
          simp only [] at hok
          cases hpl : pruneList keys2 (lastTagIdx (updatedKeyList d.keys nk) dk)
              (lastTagIdx (updatedKeyList d.keys nk) pk) with
          | none => rw [hpl] at hok; exact absurd hok (by simp)
          | some keys3 =>
            rw [hpl] at hok
            simp only [] at hok
            injection hok with hd' ht'
            subst ht'
            obtain ⟨hfst, hmemc⟩ := peerLoop_shape d.bindAddress d.advertiseAddress
              (updatedKeyList d.keys nk) (newKeyIdx (updatedKeyList d.keys nk) nk)
              (lastTagIdx (updatedKeyList d.keys nk) pk)
              (lastTagIdx (updatedKeyList d.keys nk) dk) o d.secMap m2 t2 hp
            have hsec : d'.secMap = m2 := by rw [← hd']
            constructor
            · rw [hsec]
              unfold emNodup
              rw [hfst]
              exact ih.1
            · intro p hpm
              rw [hsec] at hpm
              rcases hmemc p hpm with ⟨q, hq, -, hcq⟩
              rw [hcq]
              exact ih.2 q hq

/-- C1 (amended): in every state reachable with balanced usage
(`removeEncryption` only called for present addresses), every entry of
the Peer Security Map has refcount ≥ 1, and for an entry with count
`c`, `removeEncryption` removes the entry exactly when `c = 1` and
otherwise merely decrements the count to `c - 1`, keeping the SpiPair
sequence. A `removeEncryption` call for an absent address instead
creates an entry with refcount `-1` (see the counterexample). -/
theorem cl1_refcount_invariant (d : driver) (h : ReachBalanced d) :
    (∀ p ∈ d.secMap, 1 ≤ p.2.count) ∧
    (∀ (r : List Nat) (n : encrNode) (o : kernelOracle),
      emLookup d.secMap r = some n →
      ((emLookup ((removeEncryption d r o).1).secMap r = none ↔ n.count = 1) ∧
       (n.count ≠ 1 →
         emLookup ((removeEncryption d r o).1).secMap r = some ⟨n.spi, n.count - 1⟩))) := by
  obtain ⟨hnd, hcnt⟩ := reach_secInv d h
  refine ⟨hcnt, ?_⟩
  intro r n o hl
  have hs := removeEncryption_secMap d r o n hl
  by_cases h1 : n.count = 1
  · rw [hs, if_pos h1]
    exact ⟨⟨fun _ => h1, fun _ => emLookup_erase_self _ _ hnd⟩,
      fun hne => absurd h1 hne⟩
  · rw [hs, if_neg h1]
    rw [emLookup_insert]
    exact ⟨⟨fun hc => absurd hc (by simp), fun hc => absurd hc h1⟩, fun _ => rfl⟩

/-- C1 (witness): the entry created by one `setupEncryption` from the
initial state has refcount 1 ≥ 1. -/
theorem cl1_witness : 1 ≤ ((⟨[sampleSp0], 1⟩ : encrNode)).count := by
  have hreach : ReachBalanced
      ⟨[sampleK0], [(sampleR, ⟨[sampleSp0], 1⟩)], sampleBind, sampleAdv⟩ :=
    ReachBalanced.setup ⟨[sampleK0], [], sampleBind, sampleAdv⟩ sampleR sampleOracle _
      (ReachBalanced.init _ _ _) (by rfl)
  exact (cl1_refcount_invariant _ hreach).1 (sampleR, ⟨[sampleSp0], 1⟩) (by simp)

/-- C5 (witness): adding `sampleK1` to a single-key store puts it at
the end, away from index 0. -/
theorem cl5_witness :
    ((⟨[sampleK0], [], sampleBind, sampleAdv⟩ : driver).keys ++
        [sampleK1])[(⟨[sampleK0], [], sampleBind, sampleAdv⟩ : driver).keys.length]? =
      some sampleK1 :=
  (cl5_updateKeys_addKey ⟨[sampleK0], [], sampleBind, sampleAdv⟩ sampleK1
    sampleOracle (by decide) (by simp)).2.1

/-- C6 (witness): promoting `sampleK1` from index 1 places it at
index 0 of the KeyStore. -/
theorem cl6_witness : (swap0 (sampleD2.keys) 1)[0]? = some sampleK1 :=
  (cl6_updateKeys_promote sampleD2 sampleK1 1 sampleOracle (by decide) (by decide)
    (by decide) (by decide)).2.1

end Overlay
